import Mathlib

/-!
Verification of the policy-gradient agent core (`cs285/agents/pg_agent.py`):
Q-value estimation (`_discounted_return`, `_discounted_reward_to_go`,
`_calculate_q_vals`), advantage estimation (`_estimate_advantage`, including
the GAE recursion and the per-segment normalization loop), and the update
orchestrator (`update`).

Modelling conventions: machine floats become exact rationals (ℚ); NumPy
arrays become `List`s; a trajectory is a record of observation and reward
lists; the flattening in `update` is `List.flatten` over per-trajectory
lists.  Code paths that raise a Python exception (the out-of-bounds tensor
index in the GAE loop, the shape assert) are modelled with `Option`:
`none` means the call raises.
-/

namespace PG

/-- A single sampled trajectory: per-timestep observations and rewards.
Observations are abstract (`α`); the critic is a function `α → ℚ`. -/
structure Traj (α : Type) where
  obs : List α
  rewards : List ℚ
deriving DecidableEq

/-- Length (number of timesteps) of a trajectory, as given by its rewards. -/
def Traj.len {α : Type} (tr : Traj α) : ℕ := tr.rewards.length

/-- The terminal-marker column contributed by one trajectory when batches are
flattened: 0 everywhere except a 1 at the trajectory's final timestep. -/
def Traj.terminals {α : Type} (tr : Traj α) : List Bool :=
  List.replicate (tr.len - 1) false ++ [true]

/-- A trajectory is well formed when it has at least one timestep and its
observation and reward sequences have the same length. -/
def ValidTraj {α : Type} (tr : Traj α) : Prop :=
  tr.rewards ≠ [] ∧ tr.obs.length = tr.rewards.length

instance {α : Type} [DecidableEq α] (tr : Traj α) : Decidable (ValidTraj tr) :=
  inferInstanceAs (Decidable (_ ∧ _))

/-- The terminal-marker invariant of a flattened batch, expressed on the
list of trajectories it was flattened from: every trajectory is well
formed, so the flattened terminal markers partition the flat arrays into
the original contiguous trajectory segments. -/
def ValidBatch {α : Type} (trajs : List (Traj α)) : Prop :=
  ∀ tr ∈ trajs, ValidTraj tr

instance {α : Type} [DecidableEq α] (trajs : List (Traj α)) :
    Decidable (ValidBatch trajs) :=
  inferInstanceAs (Decidable (∀ tr ∈ trajs, ValidTraj tr))

/-- The list `[gamma^0 * r_0, gamma^1 * r_1, ...]` built by the loop in
`_discounted_return` (`discount_rewards`), starting at exponent `i`. -/
def discountList (g : ℚ) : ℕ → List ℚ → List ℚ
  | _, [] => []
  | i, r :: rs => g ^ i * r :: discountList g (i + 1) rs

/-- `_discounted_return`: sum `gamma^t * r_t` over the whole trajectory and
return a list repeating that sum once per timestep. -/
def discountedReturn (g : ℚ) (rewards : List ℚ) : List ℚ :=
  rewards.map fun _ => (discountList g 0 rewards).sum

/-- `_discounted_reward_to_go`: backward recursion
`cumulative = r_t + gamma * cumulative`, seeded with 0 past the final
timestep; entry `t` of the output is the cumulative value at `t`. -/
def discountedRewardToGo (g : ℚ) : List ℚ → List ℚ
  | [] => []
  | r :: rs =>
    let rest := discountedRewardToGo g rs
    (r + g * rest.headD 0) :: rest

/-- `_calculate_q_vals`, Case 2 (`use_reward_to_go` true, lines 104–106):
per-trajectory reward-to-go Q-values, one scalar per timestep. -/
def calcQValsRtg (g : ℚ) (rewards : List (List ℚ)) : List (List ℚ) :=
  rewards.map (discountedRewardToGo g)

/-- `_calculate_q_vals`, Case 1 (`use_reward_to_go` false, lines 99–102):
line 102 appends `[total_discounted_return] * len(reward)` where
`_discounted_return` returns a length-`T` *list*, so each trajectory
contributes `T` copies of that `T`-element list — each timestep's entry is
a list, not a scalar. -/
def calcQValsNoRtg (g : ℚ) (rewards : List (List ℚ)) :
    List (List (List ℚ)) :=
  rewards.map fun reward =>
    List.replicate reward.length (discountedReturn g reward)

/-- The GAE loop of `_estimate_advantage` (lines 138–157), translated over a
list of per-timestep triples `(reward, value, terminal)` in batch order.
The loop runs backward; at a terminal timestep the advantage is the reset
residual `r - v`; otherwise it is `r + g * v_next - v + g * lam * a_next`
where `v_next` is the *next timestep's critic value* and `a_next` the next
advantage.  The code reads `values[i+1]` from the original tensor (not the
sentinel-extended `values_gae`), so when the last timestep is not terminal
the read is out of bounds and the call raises: that path is `none`. -/
def gaeAdv (g lam : ℚ) : List (ℚ × ℚ × Bool) → Option (List ℚ)
  | [] => some []
  | (r, v, true) :: rest =>
    match gaeAdv g lam rest with
    | none => none
    | some advs => some ((r - v) :: advs)
  | (r, v, false) :: rest =>
    match gaeAdv g lam rest with
    | none => none
    | some advs =>
      match rest, advs with
      | (_, v1, _) :: _, a1 :: _ =>
        some ((r + g * v1 - v + g * lam * a1) :: advs)
      | _, _ => none

/-- The normalization loop of `_estimate_advantage` (lines 160–170),
walking the terminal markers while slicing the advantage array: a running
counter `ind` counts the current segment's timesteps; at each terminal
marker the current slice is divided elementwise by `ind` and the counters
reset.  `seg` is the slice accumulated since the last terminal.  Entries
left when the markers run out are returned undivided, as the code leaves
them (the two lists always have equal length when called on a flattened
batch). -/
def normAux : List Bool → List ℚ → List ℚ → List ℚ
  | [], advs, seg => seg ++ advs
  | true :: ts, a :: rest, seg =>
    (let s := seg ++ [a]
     s.map fun x => x / (s.length : ℚ)) ++ normAux ts rest []
  | false :: ts, a :: rest, seg => normAux ts rest (seg ++ [a])
  | _ :: _, [], seg => seg

/-- `_estimate_advantage`'s normalization pass on the advantages array. -/
def normalizeAdv (advs : List ℚ) (terms : List Bool) : List ℚ :=
  normAux terms advs []

/-- The agent configuration fields that the core computation reads,
as set by `PGAgent.__init__`: `gamma`, `use_reward_to_go`, the optional
critic (present iff `use_baseline`), `gae_lambda`, and
`normalize_advantages`. -/
structure AgentCfg (α : Type) where
  gamma : ℚ
  useRewardToGo : Bool
  critic : Option (α → ℚ)
  gaeLambda : Option ℚ
  normalizeAdvantages : Bool

/-- The branch structure of `_estimate_advantage` before the normalization
pass, on a 1-D `q_values` array: no critic copies the Q-values; a critic
without GAE subtracts the critic values; a critic with GAE runs the
backward recursion.  With a critic, line 128 computes
`values = critic(obs).squeeze()` and line 129 asserts
`values.shape == q_values.shape`: `squeeze()` drops every size-1
dimension, so a batch of total length 1 yields a 0-dim tensor whose shape
`()` never equals `(1,)` and the assert raises; otherwise the assert
reduces to length equality.  `none` models a raised exception (failed
assert or out-of-bounds read). -/
def rawAdvantage {α : Type} (cfg : AgentCfg α) (obs : List α)
    (rewards qvals : List ℚ) (terminals : List Bool) : Option (List ℚ) :=
  match cfg.critic with
  | none => some qvals
  | some V =>
    let values := obs.map V
    if values.length = qvals.length ∧ values.length ≠ 1 then
      match cfg.gaeLambda with
      | none => some (qvals.zipWith (fun q v => q - v) values)
      | some lam => gaeAdv cfg.gamma lam (rewards.zip (values.zip terminals))
    else none

/-- `_estimate_advantage` on flat arrays: branch on the configuration,
then apply the normalization pass when enabled. -/
def estimateAdvantage {α : Type} (cfg : AgentCfg α) (obs : List α)
    (rewards qvals : List ℚ) (terminals : List Bool) : Option (List ℚ) :=
  (rawAdvantage cfg obs rewards qvals terminals).map fun adv =>
    if cfg.normalizeAdvantages then normalizeAdv adv terminals else adv

/-- Flattened observations of a batch, in original trajectory order
(the list comprehension in `update`). -/
def flatObs {α : Type} (trajs : List (Traj α)) : List α :=
  (trajs.map Traj.obs).flatten

/-- Flattened rewards of a batch. -/
def flatRewards {α : Type} (trajs : List (Traj α)) : List ℚ :=
  (trajs.map Traj.rewards).flatten

/-- Flattened terminal markers of a batch. -/
def flatTerms {α : Type} (trajs : List (Traj α)) : List Bool :=
  (trajs.map Traj.terminals).flatten

/-- Flattened Q-values in reward-to-go mode: `_calculate_q_vals` per
trajectory, then the same flattening as the other arrays (`update`,
steps 1–2).  Only this mode yields the flat 1-D float array the rest of
the code expects; in full-return mode line 102 nests the per-trajectory
Q-values (see `calcQValsNoRtg` / `flatQNoRtg`). -/
def flatQRtg {α : Type} (g : ℚ) (trajs : List (Traj α)) : List ℚ :=
  (calcQValsRtg g (trajs.map Traj.rewards)).flatten

/-- Flattened Q-values in full-discounted-return mode: the one-level list
comprehension in `update` leaves each timestep's entry as the whole
`T`-element list `_discounted_return` produced, so the flattened
`q_values` is a list of rows, not of scalars. -/
def flatQNoRtg {α : Type} (g : ℚ) (trajs : List (Traj α)) :
    List (List ℚ) :=
  (calcQValsNoRtg g (trajs.map Traj.rewards)).flatten

/-- The advantage array produced by `update` steps 1–2 in reward-to-go
mode: flatten the batch, compute Q-values, then `_estimate_advantage`. -/
def agentAdvantagesRtg {α : Type} (cfg : AgentCfg α)
    (trajs : List (Traj α)) : Option (List ℚ) :=
  estimateAdvantage cfg (flatObs trajs) (flatRewards trajs)
    (flatQRtg cfg.gamma trajs) (flatTerms trajs)

/-- The pre-normalization advantage segment trajectory `tr` contributes in
reward-to-go mode: the per-trajectory restriction of each
`_estimate_advantage` branch (no critic: its reward-to-go Q-values; critic
without GAE: Q-values minus critic values; critic with GAE: the backward
recursion over its own triples). -/
def rawSingle {α : Type} (cfg : AgentCfg α) (tr : Traj α) : List ℚ :=
  match cfg.critic with
  | none => discountedRewardToGo cfg.gamma tr.rewards
  | some V =>
    match cfg.gaeLambda with
    | none =>
      (discountedRewardToGo cfg.gamma tr.rewards).zipWith
        (fun q v => q - v) (tr.obs.map V)
    | some lam =>
      (gaeAdv cfg.gamma lam
        (tr.rewards.zip ((tr.obs.map V).zip tr.terminals))).getD []

/-- The advantage segment trajectory `tr` contributes after the optional
normalization pass. -/
def singleAdv {α : Type} (cfg : AgentCfg α) (tr : Traj α) : List ℚ :=
  if cfg.normalizeAdvantages then normalizeAdv (rawSingle cfg tr) tr.terminals
  else rawSingle cfg tr

/-- Cut a flat array back into per-trajectory segments of the given
lengths (inverse of the flattening in `update`). -/
def splitByLengths : List ℕ → List ℚ → List (List ℚ)
  | [], _ => []
  | n :: ns, xs => xs.take n :: splitByLengths ns (xs.drop n)

/-- The advantage array of a batch (reward-to-go mode), cut back into the
per-trajectory segments delimited by the terminal markers. -/
def advSegments {α : Type} (cfg : AgentCfg α) (trajs : List (Traj α)) :
    List (List ℚ) :=
  splitByLengths (trajs.map Traj.len)
    ((agentAdvantagesRtg cfg trajs).getD [])

/-- Modelled from the spec: §4.2 Case 3's GAE residual with the sentinel
rule — the lookahead value `V(s_{t+1})` is taken to be 0 when `t` is the
last index of the batch, and the next advantage past the end is the dummy
0.  This is the computation the spec describes; the code instead reads
`values[i+1]` from the tensor it did not extend. -/
def gaeSentinel (g lam : ℚ) : List (ℚ × ℚ × Bool) → List ℚ
  | [] => []
  | (r, v, true) :: rest => (r - v) :: gaeSentinel g lam rest
  | (r, v, false) :: rest =>
    let advs := gaeSentinel g lam rest
    let vNext := ((rest.head?).map fun p => p.2.1).getD 0
    (r + g * vNext - v + g * lam * advs.headD 0) :: advs

/-- `PGAgent.__init__` (lines 12–48): builds the actor, optionally the
critic, and stores the hyper-parameters.  No code path raises: the
constructor performs no configuration validation at all.  The result type
is `Except` only to make that observable — every call returns `ok`.  `V`
stands for the freshly built `ValueCritic` network; the critic field is
`some V` exactly when `use_baseline` is true. -/
def initAgent (α : Type) (useBaseline : Bool) (V : α → ℚ) (gamma : ℚ)
    (useRtg : Bool) (gaeLambda : Option ℚ) (normalize : Bool) :
    Except String (AgentCfg α) :=
  Except.ok
    ⟨gamma, useRtg, if useBaseline then some V else none, gaeLambda, normalize⟩

/-- A Python dict of scalar training metrics, as an association list in
insertion order. -/
abbrev Metrics : Type := List (String × ℚ)

/-- Python `dict.update`: keys of `b` overwrite matching keys of `a` in
place; unmatched keys of `b` append in order. -/
def dictUpdate (a b : Metrics) : Metrics :=
  b.foldl (fun acc kv =>
    if acc.any fun p => p.1 = kv.1
    then acc.map fun p => if p.1 = kv.1 then kv else p
    else acc ++ [kv]) a

/-- Steps 4–5 of `update` (lines 80–91): the actor update's metrics dict;
then, if a critic is present, `baseline_gradient_steps` critic updates in
a `for` loop whose body rebinds the local `critic_info`; finally
`info.update(critic_info)`.  The local is bound only by loop iterations:
after a zero-iteration loop the name is undefined and the `info.update`
call raises `NameError`, modelled as `Except.error`; otherwise the actor
dict merged with the last iteration's critic dict is returned. -/
def updateMetrics (hasCritic : Bool) (steps : ℕ) (actorInfo : Metrics)
    (criticInfo : ℕ → Metrics) : Except String Metrics :=
  if hasCritic then
    match (if steps = 0 then none else some (criticInfo (steps - 1))) with
    | none => Except.error "NameError: name critic_info is not defined"
    | some ci => Except.ok (dictUpdate actorInfo ci)
  else Except.ok actorInfo

/-- The buffer store of the update pipeline: array handles are indices. -/
abbrev Store : Type := List (List ℚ)

/-- Allocate a fresh buffer (a NumPy `.copy()` or a new array result):
append to the store and return the new handle. -/
def alloc (s : Store) (xs : List ℚ) : Store × ℕ := (s ++ [xs], s.length)

def readArr (s : Store) (i : ℕ) : List ℚ := s.getD i []

def writeArr (s : Store) (i : ℕ) (xs : List ℚ) : Store := s.set i xs

/-- `_estimate_advantage` with buffer identity explicit: `q_values` is
passed as a handle; every branch allocates a fresh buffer for the
advantages (`q_values.copy()`, the subtraction result, or the GAE result
array), and the normalization loop's `/=` writes the advantage buffer in
place.  `none` models a raised exception. -/
def estimateAdvantageHeap {α : Type} (cfg : AgentCfg α) (s : Store)
    (obs : List α) (rewards : List ℚ) (qIdx : ℕ) (terminals : List Bool) :
    Store × Option ℕ :=
  match rawAdvantage cfg obs rewards (readArr s qIdx) terminals with
  | none => (s, none)
  | some adv =>
    let sa := alloc s adv
    if cfg.normalizeAdvantages then
      (writeArr sa.1 sa.2 (normalizeAdv (readArr sa.1 sa.2) terminals),
        some sa.2)
    else (sa.1, some sa.2)

/-- `update` restricted to array identity: allocate the flattened
`q_values` buffer (holding whatever content `qv` step 1–2 built — in
reward-to-go mode `flatQRtg`), run `_estimate_advantage` on its handle,
and keep the handle that step 5 passes to
`critic.update(obs, q_values)`. -/
def updateHeap {α : Type} (cfg : AgentCfg α) (trajs : List (Traj α))
    (qv : List ℚ) : Store × ℕ × Option ℕ :=
  let s0 := alloc [] qv
  let res := estimateAdvantageHeap cfg s0.1 (flatObs trajs)
    (flatRewards trajs) s0.2 (flatTerms trajs)
  (res.1, s0.2, res.2)

theorem length_discountList (g : ℚ) (i : ℕ) (rs : List ℚ) :
    (discountList g i rs).length = rs.length := by
  induction rs generalizing i with
  | nil => rfl
  | cons r rs ih => simp [discountList, ih]

theorem length_discountedReturn (g : ℚ) (rs : List ℚ) :
    (discountedReturn g rs).length = rs.length := by
  simp [discountedReturn]

theorem length_discountedRewardToGo (g : ℚ) (rs : List ℚ) :
    (discountedRewardToGo g rs).length = rs.length := by
  induction rs with
  | nil => rfl
  | cons r rs ih => simp [discountedRewardToGo, ih]

theorem flatQRtg_eq_map {α : Type} (g : ℚ) (trajs : List (Traj α)) :
    flatQRtg g trajs
      = (trajs.map fun tr => discountedRewardToGo g tr.rewards).flatten := by
  rw [flatQRtg, calcQValsRtg, List.map_map]
  rfl

/-- Shifting the starting exponent of the discount list multiplies its sum
by `g`. -/
theorem sum_discountList_succ (g : ℚ) (i : ℕ) (rs : List ℚ) :
    (discountList g (i + 1) rs).sum = g * (discountList g i rs).sum := by
  induction rs generalizing i with
  | nil => simp [discountList]
  | cons r rs ih =>
    simp only [discountList, List.sum_cons, ih, pow_succ]
    ring

/-- The geometric identity behind the constant-reward closed form, stated
multiplied through by `1 - g`. -/
theorem sum_discountList_replicate_mul (g r : ℚ) (T : ℕ) :
    (discountList g 0 (List.replicate T r)).sum * (1 - g) =
      r * (1 - g ^ T) := by
  induction T with
  | zero => simp [discountList]
  | succ T ih =>
    rw [List.replicate_succ]
    simp only [discountList, List.sum_cons, pow_zero, one_mul,
      sum_discountList_succ]
    calc (r + g * (discountList g 0 (List.replicate T r)).sum) * (1 - g)
        = r * (1 - g) + g * ((discountList g 0 (List.replicate T r)).sum * (1 - g)) := by ring
      _ = r * (1 - g) + g * (r * (1 - g ^ T)) := by rw [ih]
      _ = r * (1 - g ^ (T + 1)) := by ring

/-- Head of the reward-to-go list equals the whole-trajectory discounted
sum (0 for the empty list). -/
theorem headD_discountedRewardToGo (g : ℚ) (rs : List ℚ) :
    (discountedRewardToGo g rs).headD 0 = (discountList g 0 rs).sum := by
  induction rs with
  | nil => simp [discountedRewardToGo, discountList]
  | cons r rs ih =>
    simp only [discountedRewardToGo, List.headD_cons, List.sum_cons,
      discountList, pow_zero, one_mul, ih, sum_discountList_succ, zero_add]

/-- C7: in full-discounted-return mode, a constant-reward trajectory of
length `T` with discount `g < 1` gets the closed-form value
`r * (1 - g ^ T) / (1 - g)` at every timestep. -/
theorem discountedReturn_replicate (g r : ℚ) (T : ℕ) (h : g < 1) :
    discountedReturn g (List.replicate T r) =
      List.replicate T (r * (1 - g ^ T) / (1 - g)) := by
  have hg : 1 - g ≠ 0 := by
    intro hzero
    have : g = 1 := by linarith
    exact absurd this (ne_of_lt h)
  have hsum : (discountList g 0 (List.replicate T r)).sum =
      r * (1 - g ^ T) / (1 - g) := by
    rw [eq_div_iff hg]
    exact sum_discountList_replicate_mul g r T
  simp [discountedReturn, hsum]

/-- C7 witness: `T = 3`, `g = 1/2`, `r = 2` gives the value `7/2` at every
timestep. -/
theorem discountedReturn_replicate_witness :
    (1 : ℚ) / 2 < 1 ∧
      discountedReturn ((1 : ℚ) / 2) (List.replicate 3 (2 : ℚ)) =
        List.replicate 3 ((2 : ℚ) * (1 - ((1 : ℚ) / 2) ^ 3) / (1 - (1 : ℚ) / 2)) := by
  refine ⟨by norm_num, ?_⟩
  exact discountedReturn_replicate ((1 : ℚ) / 2) 2 3 (by norm_num)

/-- C8: the two Q-value estimators agree at `t = 0` on every non-empty
reward sequence, and the reward-to-go of a one-step trajectory is that
step's reward. -/
theorem rewardToGo_head_eq_return (g : ℚ) (rs : List ℚ) (h : rs ≠ []) :
    (discountedRewardToGo g rs)[0]? = (discountedReturn g rs)[0]? ∧
      ∀ r : ℚ, discountedRewardToGo g [r] = [r] := by
  constructor
  · cases rs with
    | nil => exact absurd rfl h
    | cons r rs =>
      simp only [discountedRewardToGo, discountedReturn, List.map_cons,
        List.getElem?_cons_zero, Option.some.injEq]
      rw [headD_discountedRewardToGo]
      simp only [discountList, List.sum_cons, pow_zero, one_mul,
        sum_discountList_succ, zero_add]
  · intro r
    simp [discountedRewardToGo]

/-- C8 witness: at `rs = [1, 2]`, `g = 1/2` both estimators give `2` at
index 0, and the singleton case holds. -/
theorem rewardToGo_head_eq_return_witness :
    ([(1 : ℚ), 2] ≠ []) ∧
      ((discountedRewardToGo ((1 : ℚ) / 2) [1, 2])[0]? =
          (discountedReturn ((1 : ℚ) / 2) [1, 2])[0]? ∧
        ∀ r : ℚ, discountedRewardToGo ((1 : ℚ) / 2) [r] = [r]) :=
  ⟨by simp, rewardToGo_head_eq_return ((1 : ℚ) / 2) [1, 2] (by simp)⟩

theorem gaeAdv_nil (g lam : ℚ) : gaeAdv g lam [] = some [] := rfl

theorem gaeAdv_true_step {g lam r v : ℚ} {rest : List (ℚ × ℚ × Bool)}
    {advs : List ℚ} (h : gaeAdv g lam rest = some advs) :
    gaeAdv g lam ((r, v, true) :: rest) = some ((r - v) :: advs) := by
  simp only [gaeAdv, h]

theorem gaeAdv_true_none {g lam r v : ℚ} {rest : List (ℚ × ℚ × Bool)}
    (h : gaeAdv g lam rest = none) :
    gaeAdv g lam ((r, v, true) :: rest) = none := by
  simp only [gaeAdv, h]

theorem gaeAdv_false_none {g lam r v : ℚ} {rest : List (ℚ × ℚ × Bool)}
    (h : gaeAdv g lam rest = none) :
    gaeAdv g lam ((r, v, false) :: rest) = none := by
  simp only [gaeAdv, h]

/-- A non-terminal final timestep reads `values[i+1]` past the end of the
batch: the call raises. -/
theorem gaeAdv_false_last (g lam r v : ℚ) :
    gaeAdv g lam [(r, v, false)] = none := by
  simp [gaeAdv]

theorem gaeAdv_false_nilres {g lam r v r1 v1 : ℚ} {t1 : Bool}
    {rest : List (ℚ × ℚ × Bool)}
    (h : gaeAdv g lam ((r1, v1, t1) :: rest) = some []) :
    gaeAdv g lam ((r, v, false) :: (r1, v1, t1) :: rest) = none := by
  simp only [gaeAdv, h]

theorem gaeAdv_false_step {g lam r v r1 v1 : ℚ} {t1 : Bool}
    {rest : List (ℚ × ℚ × Bool)} {a1 : ℚ} {advs : List ℚ}
    (h : gaeAdv g lam ((r1, v1, t1) :: rest) = some (a1 :: advs)) :
    gaeAdv g lam ((r, v, false) :: (r1, v1, t1) :: rest) =
      some ((r + g * v1 - v + g * lam * a1) :: a1 :: advs) := by
  simp only [gaeAdv, h]

theorem gaeAdv_length (g lam : ℚ) :
    ∀ (l : List (ℚ × ℚ × Bool)) (s : List ℚ),
      gaeAdv g lam l = some s → s.length = l.length := by
  intro l
  induction l with
  | nil =>
    intro s hs
    rw [gaeAdv_nil] at hs
    simp_all
  | cons x rest ih =>
    obtain ⟨r, v, t⟩ := x
    intro s hs
    cases t with
    | true =>
      cases hrest : gaeAdv g lam rest with
      | none => rw [gaeAdv_true_none hrest] at hs; exact absurd hs (by simp)
      | some advs =>
        rw [gaeAdv_true_step hrest] at hs
        obtain rfl := Option.some.inj hs
        simp [ih advs hrest]
    | false =>
      cases rest with
      | nil => rw [gaeAdv_false_last] at hs; exact absurd hs (by simp)
      | cons y rest' =>
        obtain ⟨r1, v1, t1⟩ := y
        cases hrest : gaeAdv g lam ((r1, v1, t1) :: rest') with
        | none => rw [gaeAdv_false_none hrest] at hs; exact absurd hs (by simp)
        | some advs =>
          cases advs with
          | nil =>
            rw [gaeAdv_false_nilres hrest] at hs; exact absurd hs (by simp)
          | cons a1 advs' =>
            rw [gaeAdv_false_step hrest] at hs
            obtain rfl := Option.some.inj hs
            simp [ih (a1 :: advs') hrest]

/-- On the triples of a single well-formed trajectory (interior markers
false, final marker true) the GAE recursion always succeeds and preserves
length. -/
theorem gaeAdv_traj (g lam : ℚ) :
    ∀ (rs vs : List ℚ), rs ≠ [] → vs.length = rs.length →
      ∃ s, gaeAdv g lam
          (rs.zip (vs.zip (List.replicate (rs.length - 1) false ++ [true])))
            = some s ∧ s.length = rs.length := by
  intro rs
  induction rs with
  | nil => intro vs h; exact absurd rfl h
  | cons r rs ih =>
    intro vs _ hlen
    cases vs with
    | nil => exact absurd hlen (by simp)
    | cons v vs =>
      cases rs with
      | nil =>
        have hv : vs = [] := by simpa using hlen
        subst hv
        refine ⟨[r - v], ?_, rfl⟩
        simpa using @gaeAdv_true_step g lam r v [] [] (gaeAdv_nil g lam)
      | cons r1 rs' =>
        have hlen' : vs.length = (r1 :: rs').length := by simpa using hlen
        obtain ⟨s, hs, hslen⟩ := ih vs (by simp) hlen'
        cases vs with
        | nil => exact absurd hlen' (by simp)
        | cons v1 vs' =>
          cases s with
          | nil => exact absurd hslen (by simp)
          | cons a1 s' =>
            have hts : List.replicate ((r1 :: rs').length - 1) false ++ [true] ≠
                ([] : List Bool) := by simp
            obtain ⟨t1, tl, htl⟩ := List.exists_cons_of_ne_nil hts
            rw [htl] at hs
            have hrep : List.replicate ((r :: r1 :: rs').length - 1) false ++ [true]
                = false :: (List.replicate ((r1 :: rs').length - 1) false ++ [true]) := by
              simp [List.replicate_succ]
            refine ⟨(r + g * v1 - v + g * lam * a1) :: a1 :: s', ?_,
              by simpa using hslen⟩
            rw [hrep, htl]
            simp only [List.zip_cons_cons]
            exact gaeAdv_false_step hs

/-- Appending further batch entries after a segment whose final marker is
true: the GAE recursion never reads across the boundary, so its output on
the concatenation is the concatenation of its outputs. -/
theorem gaeAdv_append (g lam : ℚ) :
    ∀ (seg rest : List (ℚ × ℚ × Bool)) (ar : List ℚ),
      gaeAdv g lam rest = some ar →
      (seg.getLast?.map fun p => p.2.2) = some true →
      gaeAdv g lam (seg ++ rest) =
        (gaeAdv g lam seg).map fun s => s ++ ar := by
  intro seg
  induction seg with
  | nil => intro rest ar _ hlast; exact absurd hlast (by simp)
  | cons x seg' ih =>
    obtain ⟨r, v, t⟩ := x
    intro rest ar har hlast
    cases seg' with
    | nil =>
      have ht : t = true := by simpa using hlast
      subst ht
      rw [List.cons_append, List.nil_append, gaeAdv_true_step har,
        gaeAdv_true_step (gaeAdv_nil g lam)]
      simp
    | cons y seg'' =>
      obtain ⟨r1, v1, t1⟩ := y
      have hlast' : (((r1, v1, t1) :: seg'').getLast?.map fun p => p.2.2)
          = some true := by
        rw [List.getLast?_cons_cons] at hlast
        exact hlast
      have hrec := ih rest ar har hlast'
      cases hseg : gaeAdv g lam ((r1, v1, t1) :: seg'') with
      | none =>
        rw [hseg] at hrec
        simp only [Option.map_none'] at hrec
        simp only [List.cons_append] at hrec ⊢
        cases t with
        | true => rw [gaeAdv_true_none hrec, gaeAdv_true_none hseg]; rfl
        | false => rw [gaeAdv_false_none hrec, gaeAdv_false_none hseg]; rfl
      | some s' =>
        rw [hseg] at hrec
        simp only [Option.map_some'] at hrec
        cases t with
        | true =>
          simp only [List.cons_append] at hrec ⊢
          rw [gaeAdv_true_step hrec, gaeAdv_true_step hseg]
          simp
        | false =>
          cases s' with
          | nil =>
            have := gaeAdv_length g lam _ _ hseg
            exact absurd this (by simp)
          | cons a1 s'' =>
            simp only [List.cons_append] at hrec ⊢
            rw [gaeAdv_false_step hrec, gaeAdv_false_step hseg]
            simp

/-- The last triple of a well-formed trajectory's `(reward, value,
terminal)` list carries the terminal marker. -/
theorem trajTriples_last {α : Type} (V : α → ℚ) :
    ∀ (rs : List ℚ) (os : List α), rs ≠ [] → os.length = rs.length →
      (((rs.zip ((os.map V).zip
            (List.replicate (rs.length - 1) false ++ [true]))).getLast?).map
          fun p => p.2.2) = some true := by
  intro rs
  induction rs with
  | nil => intro os h; exact absurd rfl h
  | cons r rs ih =>
    intro os _ hlen
    cases os with
    | nil => exact absurd hlen (by simp)
    | cons o os =>
      cases rs with
      | nil =>
        have ho : os = [] := by simpa using hlen
        subst ho
        simp
      | cons r1 rs' =>
        have hlen' : os.length = (r1 :: rs').length := by simpa using hlen
        have hs := ih os (by simp) hlen'
        cases os with
        | nil => exact absurd hlen' (by simp)
        | cons o1 os' =>
          have hts : List.replicate ((r1 :: rs').length - 1) false ++ [true] ≠
              ([] : List Bool) := by simp
          obtain ⟨t1, tl, htl⟩ := List.exists_cons_of_ne_nil hts
          rw [htl] at hs
          have hrep : List.replicate ((r :: r1 :: rs').length - 1) false ++ [true]
              = false :: (List.replicate ((r1 :: rs').length - 1) false ++ [true]) := by
            simp [List.replicate_succ]
          rw [hrep, htl]
          simp only [List.map_cons, List.zip_cons_cons] at hs ⊢
          rw [List.getLast?_cons_cons]
          exact hs

/-- Elementwise operations on flattened arrays split along the pieces when
the piece lengths agree. -/
theorem flatten_zipWith {β γ δ : Type} (f : β → γ → δ) :
    ∀ (xss : List (List β)) (yss : List (List γ)),
      List.Forall₂ (fun a b => a.length = b.length) xss yss →
      xss.flatten.zipWith f yss.flatten
        = (List.zipWith (fun a b => a.zipWith f b) xss yss).flatten := by
  intro xss yss h
  induction h with
  | nil => simp
  | @cons a b as bs hab _ ih =>
    simp only [List.flatten_cons, List.zipWith_cons_cons,
      List.zipWith_append _ _ _ _ _ hab, ih]

/-- `zip` on flattened arrays splits along the pieces when the piece
lengths agree. -/
theorem flatten_zip {β γ : Type} :
    ∀ (xss : List (List β)) (yss : List (List γ)),
      List.Forall₂ (fun a b => a.length = b.length) xss yss →
      xss.flatten.zip yss.flatten
        = (List.zipWith (fun a b => a.zip b) xss yss).flatten := by
  intro xss yss h
  induction h with
  | nil => simp
  | @cons a b as bs hab _ ih =>
    simp only [List.flatten_cons, List.zipWith_cons_cons,
      List.zip_append hab, ih]

theorem length_normAux :
    ∀ (terms : List Bool) (advs seg : List ℚ), advs.length = terms.length →
      (normAux terms advs seg).length = seg.length + advs.length := by
  intro terms
  induction terms with
  | nil =>
    intro advs seg _
    simp [normAux]
  | cons b ts ih =>
    intro advs seg hlen
    cases advs with
    | nil => exact absurd hlen (by simp)
    | cons a as =>
      have hlen' : as.length = ts.length := by simpa using hlen
      cases b with
      | true =>
        simp only [normAux, List.length_append, List.length_map, ih as [] hlen']
        simp
        omega
      | false =>
        simp only [normAux, ih as (seg ++ [a]) hlen']
        simp
        omega

/-- The normalization walk over one complete segment (interior markers
false, then one true marker): every entry of the accumulated slice is
divided by the slice length. -/
theorem normAux_seg :
    ∀ (k : ℕ) (adv seg : List ℚ), adv.length = k + 1 →
      normAux (List.replicate k false ++ [true]) adv seg
        = (seg ++ adv).map fun x => x / (((seg ++ adv).length : ℕ) : ℚ) := by
  intro k
  induction k with
  | zero =>
    intro adv seg hlen
    cases adv with
    | nil => exact absurd hlen (by simp)
    | cons a as =>
      have ha : as = [] := by simpa using hlen
      subst ha
      simp [normAux]
  | succ k ih =>
    intro adv seg hlen
    cases adv with
    | nil => exact absurd hlen (by simp)
    | cons a as =>
      have hlen' : as.length = k + 1 := by simpa using hlen
      have step : List.replicate (k + 1) false ++ [true]
          = false :: (List.replicate k false ++ [true]) := by
        simp [List.replicate_succ]
      rw [step]
      simp only [normAux]
      rw [ih as (seg ++ [a]) hlen']
      simp [List.append_assoc]

/-- The normalization walk distributes over concatenation after a
fully-terminated block of markers. -/
theorem normAux_append :
    ∀ (t₁ : List Bool) (a₁ : List ℚ) (t₂ : List Bool) (a₂ seg : List ℚ),
      a₁.length = t₁.length → t₁.getLast? = some true →
      normAux (t₁ ++ t₂) (a₁ ++ a₂) seg
        = normAux t₁ a₁ seg ++ normAux t₂ a₂ [] := by
  intro t₁
  induction t₁ with
  | nil => intro a₁ t₂ a₂ seg _ hlast; exact absurd hlast (by simp)
  | cons b ts ih =>
    intro a₁ t₂ a₂ seg hlen hlast
    cases a₁ with
    | nil => exact absurd hlen (by simp)
    | cons a as =>
      have hlen' : as.length = ts.length := by simpa using hlen
      cases b with
      | true =>
        cases ts with
        | nil =>
          have ha : as = [] := by simpa using hlen'
          subst ha
          simp [normAux]
        | cons c ts' =>
          have hlast' : (c :: ts').getLast? = some true := by
            rw [List.getLast?_cons_cons] at hlast
            exact hlast
          simp only [List.cons_append, normAux, List.append_eq]
          have hih := ih as t₂ a₂ [] hlen' hlast'
          rw [List.cons_append] at hih
          rw [hih]
          simp [List.append_assoc]
      | false =>
        cases ts with
        | nil =>
          simp at hlast
        | cons c ts' =>
          have hlast' : (c :: ts').getLast? = some true := by
            rw [List.getLast?_cons_cons] at hlast
            exact hlast
          simp only [List.cons_append, normAux, List.append_eq]
          exact ih as t₂ a₂ (seg ++ [a]) hlen' hlast'

theorem rawSingle_none {α : Type} {cfg : AgentCfg α} (tr : Traj α)
    (hc : cfg.critic = none) :
    rawSingle cfg tr = discountedRewardToGo cfg.gamma tr.rewards := by
  simp [rawSingle, hc]

theorem rawSingle_baseline {α : Type} {cfg : AgentCfg α} {V : α → ℚ}
    (tr : Traj α) (hc : cfg.critic = some V) (hl : cfg.gaeLambda = none) :
    rawSingle cfg tr = (discountedRewardToGo cfg.gamma tr.rewards).zipWith
      (fun q v => q - v) (tr.obs.map V) := by
  simp [rawSingle, hc, hl]

theorem rawSingle_gae {α : Type} {cfg : AgentCfg α} {V : α → ℚ} {lam : ℚ}
    (tr : Traj α) (hc : cfg.critic = some V) (hl : cfg.gaeLambda = some lam) :
    rawSingle cfg tr = (gaeAdv cfg.gamma lam
      (tr.rewards.zip ((tr.obs.map V).zip tr.terminals))).getD [] := by
  simp [rawSingle, hc, hl]

theorem rawSingle_length {α : Type} (cfg : AgentCfg α) (tr : Traj α)
    (h : ValidTraj tr) : (rawSingle cfg tr).length = tr.len := by
  cases hc : cfg.critic with
  | none =>
    simp [rawSingle_none tr hc, length_discountedRewardToGo, Traj.len]
  | some V =>
    cases hl : cfg.gaeLambda with
    | none =>
      simp [rawSingle_baseline tr hc hl, length_discountedRewardToGo,
        Traj.len, h.2]
    | some lam =>
      obtain ⟨s, hs, hslen⟩ := gaeAdv_traj cfg.gamma lam tr.rewards
        (tr.obs.map V) h.1 (by simp [h.2])
      rw [rawSingle_gae tr hc hl]
      rw [show tr.terminals
          = List.replicate (tr.rewards.length - 1) false ++ [true] from rfl]
      rw [hs]
      simpa [Traj.len] using hslen

theorem flatObs_nil {α : Type} : flatObs ([] : List (Traj α)) = [] := rfl

theorem flatRewards_nil {α : Type} : flatRewards ([] : List (Traj α)) = [] := rfl

theorem flatTerms_nil {α : Type} : flatTerms ([] : List (Traj α)) = [] := rfl

theorem flatQRtg_nil {α : Type} (g : ℚ) : flatQRtg g ([] : List (Traj α)) = [] := rfl

theorem flatObs_cons {α : Type} (tr : Traj α) (trajs : List (Traj α)) :
    flatObs (tr :: trajs) = tr.obs ++ flatObs trajs := by
  simp [flatObs]

theorem flatRewards_cons {α : Type} (tr : Traj α) (trajs : List (Traj α)) :
    flatRewards (tr :: trajs) = tr.rewards ++ flatRewards trajs := by
  simp [flatRewards]

theorem flatTerms_cons {α : Type} (tr : Traj α) (trajs : List (Traj α)) :
    flatTerms (tr :: trajs) = tr.terminals ++ flatTerms trajs := by
  simp [flatTerms]

theorem flatQRtg_cons {α : Type} (g : ℚ) (tr : Traj α)
    (trajs : List (Traj α)) :
    flatQRtg g (tr :: trajs)
      = discountedRewardToGo g tr.rewards ++ flatQRtg g trajs := by
  rw [flatQRtg_eq_map, flatQRtg_eq_map, List.map_cons, List.flatten_cons]

theorem length_terminals {α : Type} (tr : Traj α) (h : ValidTraj tr) :
    tr.terminals.length = tr.rewards.length := by
  have : 1 ≤ tr.rewards.length := List.length_pos.mpr h.1
  simp [Traj.terminals, Traj.len]
  omega

/-- Pointwise-equal piece lengths lift to `Forall₂` over mapped lists. -/
theorem forall₂_of_pointwise {α β γ : Type} (f : α → List β) (g : α → List γ)
    (l : List α) (h : ∀ x ∈ l, (f x).length = (g x).length) :
    List.Forall₂ (fun a b => a.length = b.length) (l.map f) (l.map g) := by
  induction l with
  | nil => simp
  | cons x rest ih =>
    simp only [List.map_cons, List.forall₂_cons]
    exact ⟨h x (by simp), ih fun y hy => h y (by simp [hy])⟩

theorem length_flatRewards_obs {α : Type} (trajs : List (Traj α))
    (h : ValidBatch trajs) :
    (flatObs trajs).length = (flatRewards trajs).length := by
  induction trajs with
  | nil => rfl
  | cons tr rest ih =>
    have htr := h tr (by simp)
    rw [flatObs_cons, flatRewards_cons]
    simp only [List.length_append]
    rw [htr.2, ih fun x hx => h x (by simp [hx])]

theorem length_flatQRtg {α : Type} (g : ℚ) (trajs : List (Traj α)) :
    (flatQRtg g trajs).length = (flatRewards trajs).length := by
  induction trajs with
  | nil => rw [flatQRtg_nil, flatRewards_nil]
  | cons tr rest ih =>
    rw [flatQRtg_cons, flatRewards_cons]
    simp only [List.length_append]
    rw [length_discountedRewardToGo, ih]

/-- A valid batch of at least two trajectories has total length at least
2, so the squeeze-collapsed shape assert cannot fire. -/
theorem length_flatRewards_ge2 {α : Type} (trajs : List (Traj α))
    (h : ValidBatch trajs) (hn : 2 ≤ trajs.length) :
    2 ≤ (flatRewards trajs).length := by
  match trajs, hn with
  | a :: b :: rest, _ =>
    have ha : 1 ≤ a.rewards.length :=
      List.length_pos.mpr (h a (by simp)).1
    have hb : 1 ≤ b.rewards.length :=
      List.length_pos.mpr (h b (by simp)).1
    rw [flatRewards_cons, flatRewards_cons]
    simp only [List.length_append]
    omega

theorem length_flatTerms {α : Type} (trajs : List (Traj α))
    (h : ValidBatch trajs) :
    (flatTerms trajs).length = (flatRewards trajs).length := by
  induction trajs with
  | nil => rfl
  | cons tr rest ih =>
    rw [flatTerms_cons, flatRewards_cons]
    simp only [List.length_append]
    rw [length_terminals tr (h tr (by simp)), ih fun x hx => h x (by simp [hx])]

/-- The GAE recursion over the flattened triples of a valid batch splits
into the per-trajectory results. -/
theorem gaeAdv_flatten_trajs {α : Type} (g lam : ℚ) (V : α → ℚ) :
    ∀ (trajs : List (Traj α)), ValidBatch trajs →
      gaeAdv g lam ((trajs.map fun tr =>
          tr.rewards.zip ((tr.obs.map V).zip tr.terminals)).flatten)
        = some ((trajs.map fun tr => (gaeAdv g lam
            (tr.rewards.zip ((tr.obs.map V).zip tr.terminals))).getD []).flatten) := by
  intro trajs
  induction trajs with
  | nil => intro _; simp [gaeAdv_nil]
  | cons tr rest ih =>
    intro h
    have htr := h tr (by simp)
    have hrest := ih fun x hx => h x (by simp [hx])
    obtain ⟨s, hs, _⟩ := gaeAdv_traj g lam tr.rewards (tr.obs.map V)
      htr.1 (by simp [htr.2])
    have hs' : gaeAdv g lam
        (tr.rewards.zip ((tr.obs.map V).zip tr.terminals)) = some s := by
      rw [show tr.terminals
          = List.replicate (tr.rewards.length - 1) false ++ [true] from rfl]
      exact hs
    have hlast := trajTriples_last V tr.rewards tr.obs htr.1 htr.2
    have hlast' : (((tr.rewards.zip ((tr.obs.map V).zip
        tr.terminals)).getLast?).map fun p => p.2.2) = some true := by
      rw [show tr.terminals
          = List.replicate (tr.rewards.length - 1) false ++ [true] from rfl]
      exact hlast
    rw [List.map_cons, List.flatten_cons,
      gaeAdv_append g lam _ _ _ hrest hlast', hs']
    simp [hs']

theorem zipWith_map_same {α β γ δ : Type} (f : β → γ → δ) (g : α → β)
    (k : α → γ) (l : List α) :
    List.zipWith f (l.map g) (l.map k) = l.map fun x => f (g x) (k x) := by
  induction l with
  | nil => rfl
  | cons x rest ih => simp [ih]

theorem flatObs_map {α : Type} (V : α → ℚ) (trajs : List (Traj α)) :
    (flatObs trajs).map V = (trajs.map fun tr => tr.obs.map V).flatten := by
  rw [flatObs, List.map_flatten, List.map_map]
  rfl

/-- `_estimate_advantage`'s pre-normalization advantages on a flattened
valid batch are the concatenation of the per-trajectory advantages: no
branch mixes data across a trajectory boundary. -/
theorem rawAdvantage_flatten {α : Type} (cfg : AgentCfg α)
    (trajs : List (Traj α)) (h : ValidBatch trajs)
    (hN : (flatRewards trajs).length ≠ 1) :
    rawAdvantage cfg (flatObs trajs) (flatRewards trajs)
        (flatQRtg cfg.gamma trajs) (flatTerms trajs)
      = some ((trajs.map (rawSingle cfg)).flatten) := by
  cases hc : cfg.critic with
  | none =>
    have hmap : trajs.map (rawSingle cfg)
        = trajs.map fun tr => discountedRewardToGo cfg.gamma tr.rewards :=
      List.map_congr_left fun tr _ => rawSingle_none tr hc
    simp [rawAdvantage, hc, hmap, flatQRtg_eq_map]
  | some V =>
    have hvl : ((flatObs trajs).map V).length
        = (flatQRtg cfg.gamma trajs).length := by
      simp [length_flatRewards_obs trajs h, length_flatQRtg]
    have hn1 : ((flatObs trajs).map V).length ≠ 1 := by
      rw [List.length_map, length_flatRewards_obs trajs h]
      exact hN
    cases hl : cfg.gaeLambda with
    | none =>
      have hf2 : List.Forall₂ (fun a b => a.length = b.length)
          (trajs.map fun tr => discountedRewardToGo cfg.gamma tr.rewards)
          (trajs.map fun tr => tr.obs.map V) :=
        forall₂_of_pointwise _ _ trajs fun tr htr => by
          simp [length_discountedRewardToGo, (h tr htr).2]
      have hmap : trajs.map (rawSingle cfg)
          = trajs.map fun tr =>
              (discountedRewardToGo cfg.gamma tr.rewards).zipWith
                (fun q v => q - v) (tr.obs.map V) :=
        List.map_congr_left fun tr _ => rawSingle_baseline tr hc hl
      simp only [rawAdvantage, hc, hl]
      rw [if_pos ⟨hvl, hn1⟩]
      rw [flatQRtg_eq_map, flatObs_map, flatten_zipWith _ _ _ hf2,
        zipWith_map_same, hmap]
    | some lam =>
      have hinner : ((flatObs trajs).map V).zip (flatTerms trajs)
          = (trajs.map fun tr => (tr.obs.map V).zip tr.terminals).flatten := by
        rw [flatObs_map, flatTerms, flatten_zip _ _ (forall₂_of_pointwise _ _
          trajs fun tr htr => by
            simp [(h tr htr).2, length_terminals tr (h tr htr)]),
          zipWith_map_same]
      have houter : (flatRewards trajs).zip
            (((flatObs trajs).map V).zip (flatTerms trajs))
          = (trajs.map fun tr =>
              tr.rewards.zip ((tr.obs.map V).zip tr.terminals)).flatten := by
        rw [hinner, flatRewards, flatten_zip _ _ (forall₂_of_pointwise _ _
          trajs fun tr htr => by
            simp [List.length_zip, (h tr htr).2,
              length_terminals tr (h tr htr)]),
          zipWith_map_same]
      have hmap : trajs.map (rawSingle cfg)
          = trajs.map fun tr => (gaeAdv cfg.gamma lam
              (tr.rewards.zip ((tr.obs.map V).zip tr.terminals))).getD [] :=
        List.map_congr_left fun tr _ => rawSingle_gae tr hc hl
      simp only [rawAdvantage, hc, hl]
      rw [if_pos ⟨hvl, hn1⟩]
      rw [houter, gaeAdv_flatten_trajs cfg.gamma lam V trajs h, hmap]

theorem terminals_getLast {α : Type} (tr : Traj α) :
    tr.terminals.getLast? = some true := by
  simp [Traj.terminals]

/-- The normalization pass on a flattened valid batch acts on each
trajectory segment independently. -/
theorem normalizeAdv_flatten {α : Type} (cfg : AgentCfg α) :
    ∀ (trajs : List (Traj α)), ValidBatch trajs →
      normalizeAdv ((trajs.map (rawSingle cfg)).flatten) (flatTerms trajs)
        = (trajs.map fun tr =>
            normalizeAdv (rawSingle cfg tr) tr.terminals).flatten := by
  intro trajs
  induction trajs with
  | nil => intro _; rfl
  | cons tr rest ih =>
    intro h
    have htr := h tr (by simp)
    have hlen : (rawSingle cfg tr).length = tr.terminals.length := by
      rw [rawSingle_length cfg tr htr, length_terminals tr htr]
      rfl
    rw [List.map_cons, List.flatten_cons, flatTerms_cons, List.map_cons,
      List.flatten_cons]
    unfold normalizeAdv
    rw [normAux_append tr.terminals (rawSingle cfg tr) (flatTerms rest)
      ((rest.map (rawSingle cfg)).flatten) [] hlen (terminals_getLast tr)]
    rw [show normAux (flatTerms rest) ((rest.map (rawSingle cfg)).flatten) []
        = normalizeAdv ((rest.map (rawSingle cfg)).flatten) (flatTerms rest)
      from rfl]
    rw [ih fun x hx => h x (by simp [hx])]
    rfl

/-- Full decomposition of `update` steps 1–2 over a valid batch of total
length other than 1 (a single-timestep batch with a critic raises at the
shape assert): the advantage array is the concatenation of the
per-trajectory advantage segments. -/
theorem agentAdvantagesRtg_flatten {α : Type} (cfg : AgentCfg α)
    (trajs : List (Traj α)) (h : ValidBatch trajs)
    (hN : (flatRewards trajs).length ≠ 1) :
    agentAdvantagesRtg cfg trajs
      = some ((trajs.map (singleAdv cfg)).flatten) := by
  have hdef : agentAdvantagesRtg cfg trajs
      = (rawAdvantage cfg (flatObs trajs) (flatRewards trajs)
          (flatQRtg cfg.gamma trajs) (flatTerms trajs)).map fun adv =>
            if cfg.normalizeAdvantages then normalizeAdv adv (flatTerms trajs)
            else adv := rfl
  rw [hdef, rawAdvantage_flatten cfg trajs h hN]
  simp only [Option.map_some']
  cases hn : cfg.normalizeAdvantages with
  | false =>
    simp only [Bool.false_eq_true, if_false]
    refine congrArg some (congrArg List.flatten ?_)
    refine List.map_congr_left fun tr _ => ?_
    simp [singleAdv, hn]
  | true =>
    rw [if_pos rfl, normalizeAdv_flatten cfg trajs h]
    refine congrArg some (congrArg List.flatten ?_)
    refine List.map_congr_left fun tr _ => ?_
    simp [singleAdv, hn]

theorem forall₂_len_of_pointwise {α : Type} (f : α → List ℚ) (g : α → ℕ)
    (l : List α) (h : ∀ x ∈ l, (f x).length = g x) :
    List.Forall₂ (fun p n => p.length = n) (l.map f) (l.map g) := by
  induction l with
  | nil => simp
  | cons x rest ih =>
    simp only [List.map_cons, List.forall₂_cons]
    exact ⟨h x (by simp), ih fun y hy => h y (by simp [hy])⟩

theorem splitByLengths_flatten :
    ∀ (pieces : List (List ℚ)) (ns : List ℕ),
      List.Forall₂ (fun p n => p.length = n) pieces ns →
      splitByLengths ns pieces.flatten = pieces := by
  intro pieces ns h
  induction h with
  | nil => rfl
  | @cons p n ps ms hpn _ ih =>
    simp only [List.flatten_cons, splitByLengths]
    rw [← hpn, List.take_left, List.drop_left, ih]

theorem singleAdv_length {α : Type} (cfg : AgentCfg α)
    (tr : Traj α) (h : ValidTraj tr) :
    (singleAdv cfg tr).length = tr.len := by
  cases hn : cfg.normalizeAdvantages with
  | false => simp [singleAdv, hn, rawSingle_length cfg tr h]
  | true =>
    simp only [singleAdv, hn, if_true]
    rw [show normalizeAdv (rawSingle cfg tr) tr.terminals
        = normAux tr.terminals (rawSingle cfg tr) [] from rfl]
    rw [length_normAux tr.terminals (rawSingle cfg tr) []
      (by rw [rawSingle_length cfg tr h, length_terminals tr h]; rfl)]
    simp [rawSingle_length cfg tr h]

theorem advSegments_eq_map {α : Type} (cfg : AgentCfg α)
    (trajs : List (Traj α)) (h : ValidBatch trajs)
    (hN : (flatRewards trajs).length ≠ 1) :
    advSegments cfg trajs = trajs.map (singleAdv cfg) := by
  unfold advSegments
  rw [agentAdvantagesRtg_flatten cfg trajs h hN, Option.getD_some]
  exact splitByLengths_flatten _ _ (forall₂_len_of_pointwise _ _ trajs
    fun tr htr => singleAdv_length cfg tr (h tr htr))

/-- C1: boundary isolation of advantage estimation, with reward-to-go
Q-values.  In every advantage mode (any critic, any GAE lambda,
normalization on or off), the advantage segment of trajectory `j` depends
only on trajectory `j`: two valid batches of at least two trajectories
each (the claim's setting — trajectories A and B are distinct members of
the batch, so the batch has total length at least 2 and the squeeze-shape
assert passes) that agree on trajectory `j` produce the same advantage
segment there, whatever the other trajectories' rewards and observations
are.  (In full-discounted-return mode the program has no per-timestep
scalar advantages at all: line 102 nests the Q-values, see
`calcQValsNoRtg`, and with a critic the line-129 assert then raises.) -/
theorem advantage_boundary_isolation {α : Type} (cfg : AgentCfg α)
    (t₁ t₂ : List (Traj α)) (j : ℕ) (h₁ : ValidBatch t₁) (h₂ : ValidBatch t₂)
    (hn₁ : 2 ≤ t₁.length) (hn₂ : 2 ≤ t₂.length)
    (hj : t₁[j]? = t₂[j]?) :
    (advSegments cfg t₁)[j]? = (advSegments cfg t₂)[j]? := by
  have hN₁ : (flatRewards t₁).length ≠ 1 := by
    have := length_flatRewards_ge2 t₁ h₁ hn₁
    omega
  have hN₂ : (flatRewards t₂).length ≠ 1 := by
    have := length_flatRewards_ge2 t₂ h₂ hn₂
    omega
  rw [advSegments_eq_map cfg t₁ h₁ hN₁, advSegments_eq_map cfg t₂ h₂ hN₂,
    List.getElem?_map, List.getElem?_map, hj]

/-- C1 witness: with a baseline, GAE lambda 1/2 and normalization on,
changing trajectory B's reward and observation leaves trajectory A's
advantage segment unchanged. -/
theorem advantage_boundary_isolation_witness :
    ValidBatch [Traj.mk [(1 : ℚ), 2] [1, 1], Traj.mk [3] [2]] ∧
    ValidBatch [Traj.mk [(1 : ℚ), 2] [1, 1], Traj.mk [4] [5]] ∧
    2 ≤ [Traj.mk [(1 : ℚ), 2] [1, 1], Traj.mk [3] [2]].length ∧
    2 ≤ [Traj.mk [(1 : ℚ), 2] [1, 1], Traj.mk [4] [5]].length ∧
    ([Traj.mk [(1 : ℚ), 2] [1, 1], Traj.mk [3] [2]][0]?
      = [Traj.mk [(1 : ℚ), 2] [1, 1], Traj.mk [4] [5]][0]?) ∧
    (advSegments (⟨9 / 10, true, some id, some (1 / 2), true⟩ : AgentCfg ℚ)
        [Traj.mk [(1 : ℚ), 2] [1, 1], Traj.mk [3] [2]])[0]?
      = (advSegments (⟨9 / 10, true, some id, some (1 / 2), true⟩ : AgentCfg ℚ)
        [Traj.mk [(1 : ℚ), 2] [1, 1], Traj.mk [4] [5]])[0]? :=
  ⟨by decide, by decide, by decide, by decide, by decide,
    advantage_boundary_isolation _ _ _ 0 (by decide) (by decide) (by decide)
      (by decide) (by decide)⟩

/-- C4: the normalization pass of `_estimate_advantage` (lines 159–170),
on any advantage array flattened from trajectory segments with the
terminal markers delimiting them (the terminal-marker invariant), divides
every advantage value inside each segment by that segment's length — each
segment independently, whatever advantage mode produced the values; no
mean is subtracted and no standard deviation over the batch is involved
anywhere. -/
theorem normalization_per_segment (segs : List (List ℚ))
    (h : ∀ s ∈ segs, s ≠ []) :
    normalizeAdv segs.flatten
        ((segs.map fun s =>
          List.replicate (s.length - 1) false ++ [true]).flatten)
      = (segs.map fun s => s.map fun x => x / (s.length : ℚ)).flatten := by
  induction segs with
  | nil => rfl
  | cons s rest ih =>
    have hs : s ≠ [] := h s (by simp)
    have hpos : 1 ≤ s.length := List.length_pos.mpr hs
    have hlen : s.length = (s.length - 1) + 1 := by omega
    have hterm : (List.replicate (s.length - 1) false ++ [true]).length
        = s.length := by
      simp
      omega
    simp only [List.map_cons, List.flatten_cons]
    unfold normalizeAdv
    rw [normAux_append (List.replicate (s.length - 1) false ++ [true]) s
      ((rest.map fun s =>
        List.replicate (s.length - 1) false ++ [true]).flatten)
      (rest.flatten) [] (by rw [hterm]) (List.getLast?_concat _)]
    rw [show normAux ((rest.map fun s =>
        List.replicate (s.length - 1) false ++ [true]).flatten)
        rest.flatten []
      = normalizeAdv rest.flatten ((rest.map fun s =>
          List.replicate (s.length - 1) false ++ [true]).flatten) from rfl]
    rw [ih fun x hx => h x (by simp [hx])]
    rw [normAux_seg (s.length - 1) s [] (by omega)]
    simp only [List.nil_append]

/-- C4 witness: advantage segments `[1, 2]` and `[3]` become `[1/2, 1]`
and `[3]` under the per-segment division. -/
theorem normalization_per_segment_witness :
    (∀ s ∈ [[(1 : ℚ), 2], [3]], s ≠ []) ∧
    normalizeAdv [[(1 : ℚ), 2], [3]].flatten
        (([[(1 : ℚ), 2], [3]].map fun s =>
          List.replicate (s.length - 1) false ++ [true]).flatten)
      = ([[(1 : ℚ), 2], [3]].map fun s =>
          s.map fun x => x / (s.length : ℚ)).flatten :=
  ⟨by decide, normalization_per_segment [[(1 : ℚ), 2], [3]] (by decide)⟩

/-- C3: on a batch whose last terminal marker is 0 (here length 2, so the
shape assert at line 129 passes), the GAE loop's read of `values[i+1]` at
the last index is out of bounds — `values_gae` got the appended sentinel
(line 141) but the loop indexes the original `values` tensor (line
152) — so `_estimate_advantage` raises (modelled `none`) instead of
computing the total sentinel form the spec describes, in which the last
residual is `delta = r - V(s)` (second conjunct, on the spec-modelled
recursion over the same triples). -/
theorem gae_nonterminal_last_raises :
    estimateAdvantage
        (⟨9 / 10, true, some id, some (1 / 2), false⟩ : AgentCfg ℚ)
        [(5 : ℚ), 6] [(1 : ℚ), 2] [(1 : ℚ), 2] [false, false]
      = none ∧
    gaeSentinel (9 / 10) (1 / 2) [((1 : ℚ), (5 : ℚ), false),
        ((2 : ℚ), (6 : ℚ), false)]
      = [1 + (9 / 10) * 6 - 5 + (9 / 10) * (1 / 2) * ((2 : ℚ) - 6),
          (2 : ℚ) - 6] := by
  constructor
  · rfl
  · simp [gaeSentinel]

/-- C5 counterexample: requesting GAE (`gae_lambda = 1`) without a
baseline does not fail at construction — the constructor returns the
agent, with no critic and the lambda stored. -/
theorem gae_without_baseline_constructs :
    initAgent ℚ false id (9 / 10) true (some 1) false
      = Except.ok (⟨9 / 10, true, none, some 1, false⟩ : AgentCfg ℚ) := rfl

/-- C5 amended: the constructor stores the configuration without any
validation, and advantage estimation then silently ignores the GAE
request — with no critic the advantages are the Q-values, whatever
`gae_lambda` holds. -/
theorem gae_without_baseline_ignored {α : Type} (V : α → ℚ) (g lam : ℚ)
    (u : Bool) (obs : List α) (rewards qvals : List ℚ)
    (terms : List Bool) :
    initAgent α false V g u (some lam) false
        = Except.ok (⟨g, u, none, some lam, false⟩ : AgentCfg α) ∧
    estimateAdvantage (⟨g, u, none, some lam, false⟩ : AgentCfg α) obs
        rewards qvals terms = some qvals :=
  ⟨rfl, rfl⟩

/-- C6: with a baseline present and a gradient-step count of 0, `update`
does not skip the loop and return the actor metrics — it raises
`NameError` at `info.update(critic_info)`, because the loop body that
binds `critic_info` never ran. -/
theorem zero_baseline_steps_raises :
    updateMetrics true 0 [("actor_loss", (1 : ℚ))]
        (fun _ => [("baseline_loss", (2 : ℚ))])
      = Except.error "NameError: name critic_info is not defined" := rfl

/-- C9: the concrete scenario — trajectories with rewards `[1, 1]` and
`[2]`, discount 0.9, reward-to-go mode, no baseline: per-trajectory
Q-values `[1.9, 1]` and `[2]`, flattened Q-values `[1.9, 1, 2]` in
original order, and advantages exactly equal to the flattened Q-values. -/
theorem concrete_scenario :
    calcQValsRtg (9 / 10) [[(1 : ℚ), 1], [2]] = [[19 / 10, 1], [2]] ∧
    flatQRtg (9 / 10)
        [Traj.mk [(0 : ℚ), 0] [1, 1], Traj.mk [0] [2]] = [19 / 10, 1, 2] ∧
    agentAdvantagesRtg (⟨9 / 10, true, none, none, false⟩ : AgentCfg ℚ)
        [Traj.mk [(0 : ℚ), 0] [1, 1], Traj.mk [0] [2]]
      = some [19 / 10, 1, 2] := by
  refine ⟨?_, ?_, ?_⟩ <;>
    · simp [calcQValsRtg, discountedRewardToGo, flatQRtg, agentAdvantagesRtg,
        estimateAdvantage, rawAdvantage, flatObs, flatRewards, flatTerms]
      norm_num

/-- C7: in full-discounted-return mode the code does not give each
timestep the scalar closed form: `_discounted_return` returns a `T`-element
list (each member the discounted sum) and line 102 then appends
`[total_discounted_return] * len(reward)`, so each timestep's Q entry is
that whole list.  At rewards `[1, 1]`, discount 1/2, the scalar closed
form `r * (1 - g ^ T) / (1 - g)` is 3/2, but the per-trajectory Q-values
are the nested `[[3/2, 3/2], [3/2, 3/2]]` — the second conjunct shows the
inner helper itself does produce the closed-form list the claim
describes. -/
theorem fullreturn_qvals_nested :
    calcQValsNoRtg ((1 : ℚ) / 2) [[1, 1]]
      = [[[(1 : ℚ) * (1 - (1 / 2) ^ 2) / (1 - 1 / 2),
           1 * (1 - (1 / 2) ^ 2) / (1 - 1 / 2)],
          [1 * (1 - (1 / 2) ^ 2) / (1 - 1 / 2),
           1 * (1 - (1 / 2) ^ 2) / (1 - 1 / 2)]]] ∧
    discountedReturn ((1 : ℚ) / 2) [1, 1]
      = [(1 : ℚ) * (1 - (1 / 2) ^ 2) / (1 - 1 / 2),
         1 * (1 - (1 / 2) ^ 2) / (1 - 1 / 2)] := by
  constructor <;>
    · simp [calcQValsNoRtg, discountedReturn, discountList,
        List.replicate]
      norm_num

/-- C10: in every configuration and whatever content the flattened
`q_values` buffer holds, advantage estimation never mutates that buffer —
the advantages live in a fresh buffer and the in-place normalization
writes only that buffer — so the targets the critic update reads from the
`q_values` handle are exactly the raw Q-values built in step 1 (in
reward-to-go mode, `flatQRtg`). -/
theorem qvalues_never_mutated {α : Type} (cfg : AgentCfg α)
    (trajs : List (Traj α)) (qv : List ℚ) :
    readArr (updateHeap cfg trajs qv).1 (updateHeap cfg trajs qv).2.1
      = qv := by
  cases hr : rawAdvantage cfg (flatObs trajs) (flatRewards trajs) qv
      (flatTerms trajs) with
  | none =>
    simp [updateHeap, estimateAdvantageHeap, alloc, readArr, hr]
  | some adv =>
    cases hn : cfg.normalizeAdvantages <;>
      simp [updateHeap, estimateAdvantageHeap, alloc, readArr, writeArr,
        hr, hn, List.getD]

end PG
